import Mathlib

/-!
Verification of the Tacotron2 acoustic decoder module (`layers/tacotron2.py`).

The module is embedded shallowly over rational-valued nested lists:
a 1-axis tensor is a `Vec := List ℚ`, a 2-axis tensor a `Mat := List Vec`
(leading axis = batch), a 3-axis tensor a `T3 := List Mat`.  Tensors produced
by the module are rectangular by construction; the index-based operations
below are stated and proved under explicit rectangularity hypotheses.

External collaborators (the attention mechanism, prenet, linear projections,
recurrent cells, dropout, the sigmoid kernel) live outside the decoder module
and are consumed through the capability record `Caps`, mirroring the
interfaces the decoder requires of them.
-/

namespace TTS

abbrev Vec := List ℚ
abbrev Mat := List Vec
abbrev T3 := List Mat

/-- A tensor of either 2 or 3 axes, as dispatched on by `len(memory.shape)`
in `Decoder._update_memory`. -/
inductive Tensor where
  | t2 : Mat → Tensor
  | t3 : T3 → Tensor
deriving Repr, DecidableEq

/-- The 2-axis payload of a `Tensor` (the 3-axis case never reaches the
call sites that use this projection). -/
def unt2 : Tensor → Mat
  | .t2 m => m
  | .t3 _ => []

/-- The 3-axis payload of a `Tensor`. -/
def unt3 : Tensor → T3
  | .t3 m => m
  | .t2 _ => []

/-- All innermost rows of a `Tensor` (the slices along its trailing axis). -/
def Tensor.rows : Tensor → List Vec
  | .t2 m => m
  | .t3 m => m.flatten

/-- `torch.Tensor.transpose(0, 1)` for rectangular nested lists: entry
`(i, j)` of the result is entry `(j, i)` of the input.  On ragged input the
out-of-range reads return `default`; all uses are rectangular. -/
def ttranspose {α : Type} [Inhabited α] (x : List (List α)) : List (List α) :=
  (List.range (x.headD []).length).map (fun j => x.map (fun row => row.getD j default))

/-- Concatenation along the trailing axis, `torch.cat((a, b), dim=-1)`, for
two 2-axis tensors with equal leading (batch) axis.  A leading-axis mismatch
is a runtime error in torch; it is never exercised here. -/
def cat2 (a b : Mat) : Mat := a.zipWith (· ++ ·) b

/-- Concatenation along the trailing axis for two 3-axis tensors. -/
def cat3 (a b : T3) : T3 := a.zipWith cat2 b

/-- Split a flat list into consecutive chunks of size `k` (the regrouping
performed by `torch.Tensor.view` on a contiguous tensor). -/
def chunkList {α : Type} (k : ℕ) (l : List α) : List (List α) :=
  if h : k = 0 then []
  else
    match l with
    | [] => []
    | a :: rest => (a :: rest).take k :: chunkList k ((a :: rest).drop k)
termination_by l.length
decreasing_by
  have h1 : 0 < k := Nat.pos_of_ne_zero h
  simp only [List.length_drop, List.length_cons]
  omega

/-- A zero matrix of `b` rows and `n` columns, modelling
`torch.zeros(1).repeat(b, n)`. -/
def zerosM (b n : ℕ) : Mat := List.replicate b (List.replicate n 0)

/-- Elementwise `>` against a scalar followed by Python truthiness, modelling
`if tensor > 0.7:`.  Torch yields a boolean tensor; Python then takes its
truth value, which is defined only for single-element tensors (the stop
tensors are `(B, 1)`, so this requires batch size 1) and raises otherwise. -/
def truthGT (m : Mat) (c : ℚ) : Option Bool :=
  match m with
  | [[v]] => some (decide (c < v))
  | _ => none

/-- The capabilities the decoder consumes from outside the module
(`common_layers` and the tensor runtime), per the interfaces in the spec:
prenet and linear transforms act along the trailing axis, recurrent cells map
`(input, (hidden, cell))` to `(hidden, cell)`, the attention maps
`(query, inputs, processed_inputs, mask)` to `(context, attention_weights)`.
Dropout is modelled as a deterministic transform supplied by the caller. -/
structure Caps where
  prenetF : Vec → Vec
  preprocess_inputsF : T3 → T3
  attention_rnnF : Mat → Mat × Mat → Mat × Mat
  attentionF : Mat → T3 → T3 → Option Mat → Mat × Mat
  decoder_rnnF : Mat → Mat × Mat → Mat × Mat
  linear_projectionF : Mat → Mat
  stopnetF : Mat → Mat
  dropout_attnF : Mat → Mat
  dropout_decoderF : Mat → Mat
  sigmoidF : ℚ → ℚ

/-- The prenet applied to a 2-axis tensor (along the trailing axis). -/
def prenetM (c : Caps) (m : Mat) : Mat := m.map c.prenetF

/-- The prenet applied to a 3-axis tensor (along the trailing axis). -/
def prenet3 (c : Caps) (t : T3) : T3 := t.map (fun m => m.map c.prenetF)

/-- `torch.sigmoid` applied elementwise to a 2-axis tensor. -/
def sigmoidT (c : Caps) (m : Mat) : Mat := m.map (fun row => row.map c.sigmoidF)

/-- The decoder object: the configuration fixed by `Decoder.__init__`
(including the learned submodules' parameter shapes, recorded as
`*_in_features`/`*_out_features` of the corresponding `nn` modules), the
streaming buffer `memory_truncated`, and the per-run mutable step state
(`query` … `mask`) that the Python code stores on `self`. -/
structure Decoder where
  frame_dim : ℕ
  r_init : ℕ
  r : ℕ
  encoder_embedding_dim : ℕ
  separate_stopnet : Bool
  max_decoder_steps : ℕ
  gate_threshold : ℚ
  query_dim : ℕ
  decoder_rnn_dim : ℕ
  prenet_dim : ℕ
  attn_dim : ℕ
  p_attention_dropout : ℚ
  p_decoder_dropout : ℚ
  prenet_in_features : ℕ
  prenet_out_features : ℕ
  attention_rnn_in_features : ℕ
  attention_rnn_out_features : ℕ
  proj_in_features : ℕ
  proj_out_features : ℕ
  stopnet_in_features : ℕ
  stopnet_out_features : ℕ
  memory_truncated : Option Mat
  query : Mat
  attention_rnn_cell_state : Mat
  decoder_hidden : Mat
  decoder_cell : Mat
  context : Mat
  inputs : T3
  processed_inputs : T3
  mask : Option Mat
deriving Repr, DecidableEq

/-- `Decoder.__init__(input_dim, frame_dim, r, ...)`.  The attention/prenet
configuration tags select implementations of the external capabilities and
are not decoder state; the per-run state fields start unset (modelled as
empty).  The linear projection is built with output width
`frame_dim * r_init` and the stopnet input width `decoder_rnn_dim +
frame_dim * r_init`, both from the construction-time `r`. -/
def Decoder.init (input_dim frame_dim r : ℕ) (separate_stopnet : Bool) : Decoder :=
  { frame_dim := frame_dim
    r_init := r
    r := r
    encoder_embedding_dim := input_dim
    separate_stopnet := separate_stopnet
    max_decoder_steps := 1000000
    gate_threshold := 1/2
    query_dim := 1024
    decoder_rnn_dim := 1024
    prenet_dim := 256
    attn_dim := 128
    p_attention_dropout := 1/10
    p_decoder_dropout := 1/10
    prenet_in_features := frame_dim
    prenet_out_features := 256
    attention_rnn_in_features := 256 + input_dim
    attention_rnn_out_features := 1024
    proj_in_features := 1024 + input_dim
    proj_out_features := frame_dim * r
    stopnet_in_features := 1024 + frame_dim * r
    stopnet_out_features := 1
    memory_truncated := none
    query := []
    attention_rnn_cell_state := []
    decoder_hidden := []
    decoder_cell := []
    context := []
    inputs := []
    processed_inputs := []
    mask := none }

/-- `Decoder.set_r`. -/
def Decoder.set_r (d : Decoder) (new_r : ℕ) : Decoder := { d with r := new_r }

/-- `Decoder.get_go_frame`: a `(B, frame_dim * r)` zero tensor, where `B`
is `inputs.size(0)`. -/
def Decoder.get_go_frame (d : Decoder) (inputs : T3) : Mat :=
  zerosM inputs.length (d.frame_dim * d.r)

/-- `Decoder._init_states`: unless `keep_states`, reset the recurrent and
attention-context state to zeros of the configured widths; always cache the
encoder memory, its attention preprocessing, and the mask. -/
def Decoder.init_states (d : Decoder) (c : Caps) (inputs : T3) (mask : Option Mat)
    (keep_states : Bool) : Decoder :=
  let B := inputs.length
  let d :=
    if keep_states then d
    else
      { d with
        query := zerosM B d.query_dim
        attention_rnn_cell_state := zerosM B d.query_dim
        decoder_hidden := zerosM B d.decoder_rnn_dim
        decoder_cell := zerosM B d.decoder_rnn_dim
        context := zerosM B d.encoder_embedding_dim }
  { d with
    inputs := inputs
    processed_inputs := c.preprocess_inputsF inputs
    mask := mask }

/-- `Decoder._reshape_memory`: if the trailing axis already has width
`frame_dim`, regroup each batch row into `size(1) // r` groups via
`view(B, size(1) // r, -1)` (`none` models the runtime errors: `r = 0` is a
division error and a non-divisible element count cannot be viewed); then
`transpose(0, 1)` to time-major.  Defined for rectangular input. -/
def Decoder.reshape_memory (d : Decoder) (memory : T3) : Option T3 :=
  if ((memory.headD []).headD []).length = d.frame_dim then
    let g := (memory.headD []).length / d.r
    if g = 0 then none
    else
      let w := (memory.headD []).length * d.frame_dim / g
      if (memory.headD []).length * d.frame_dim = g * w then
        some (ttranspose (memory.map (fun row => chunkList w row.flatten)))
      else none
  else some (ttranspose memory)

/-- `Decoder._parse_outputs`: stack the per-step lists along a new leading
time axis and move batch first (the nested lists are already stacked, so
only the `transpose(0, 1)` remains); reshape the output frame-group axis via
`view(B, -1, frame_dim)` and present frames channel-major via
`transpose(1, 2)`.  `none` models `view`'s runtime error when `frame_dim`
does not divide a row's element count.  The stop-token entries are `(B,)`
vectors in the teacher-forced run and `(B, 1)` tensors in the inference
runs, so that argument is polymorphic. -/
def Decoder.parse_outputs {σ : Type} [Inhabited σ] (d : Decoder) (outputs : T3)
    (stop_tokens : List (List σ)) (alignments : T3) :
    Option (T3 × List (List σ) × T3) :=
  let alignments2 := ttranspose alignments
  let stop_tokens2 := ttranspose stop_tokens
  let o := ttranspose outputs
  if d.frame_dim = 0 then none
  else if ∀ row ∈ o, d.frame_dim ∣ row.flatten.length then
    some (o.map (fun row => ttranspose (chunkList d.frame_dim row.flatten)),
      stop_tokens2, alignments2)
  else none

/-- `Decoder._update_memory`: drop the first `frame_dim * (r - 1)` entries of
the trailing axis, keeping its last `frame_dim` entries, for a 2- or 3-axis
input. -/
def Decoder.update_memory (d : Decoder) (memory : Tensor) : Tensor :=
  match memory with
  | .t2 m => .t2 (m.map (List.drop (d.frame_dim * (d.r - 1))))
  | .t3 m => .t3 (m.map (fun x => x.map (List.drop (d.frame_dim * (d.r - 1)))))

/-- `Decoder.decode`: one decoding step.  Feeds `memory ++ context` through
the attention recurrent cell, queries the attention capability for a fresh
context and alignment, feeds `query ++ context` through the decoder
recurrent cell, projects `hidden ++ context` to the static full-resolution
frame-group, evaluates the stopnet on `hidden ++ projection` (`detach` only
severs the gradient path, so both branches have the same value), and keeps
the first `r * frame_dim` projection entries.  Returns the updated state and
`(decoder_output, attention_weights, stop_token)` in the source's order. -/
def Decoder.decode (d : Decoder) (c : Caps) (memory : Mat) :
    Decoder × Mat × Mat × Mat :=
  let query_input := cat2 memory d.context
  let arnn := c.attention_rnnF query_input (d.query, d.attention_rnn_cell_state)
  let query := c.dropout_attnF arnn.1
  let attention_rnn_cell_state := c.dropout_attnF arnn.2
  let attn := c.attentionF query d.inputs d.processed_inputs d.mask
  let context := attn.1
  let attention_weights := attn.2
  let decoder_rnn_input := cat2 query context
  let drnn := c.decoder_rnnF decoder_rnn_input (d.decoder_hidden, d.decoder_cell)
  let decoder_hidden := c.dropout_decoderF drnn.1
  let decoder_cell := drnn.2
  let decoder_hidden_context := cat2 decoder_hidden context
  let decoder_output := c.linear_projectionF decoder_hidden_context
  let stopnet_input := cat2 decoder_hidden decoder_output
  let stop_token :=
    if d.separate_stopnet then c.stopnetF stopnet_input else c.stopnetF stopnet_input
  let decoder_output := decoder_output.map (List.take (d.r * d.frame_dim))
  ({ d with
      query := query
      attention_rnn_cell_state := attention_rnn_cell_state
      context := context
      decoder_hidden := decoder_hidden
      decoder_cell := decoder_cell },
    decoder_output, attention_weights, stop_token)

/-- How an inference loop exited: via the stop-gate `break`, or via the
`max_decoder_steps` ceiling (the branch that prints the diagnostic
`"   | > Decoder stopped with 'max_decoder_steps"` before breaking). -/
inductive StopReason where
  | gate
  | ceiling
deriving Repr, DecidableEq

/-- The state of an inference run when its loop exits: the final decoder
object, the accumulated per-step lists the source builds (`outputs`,
`stop_tokens`, `alignments`), the loop counter `t`, the exit reason, and
`mems` — a verification trace recording the frame-group fed into the step
(before the prenet) at every iteration; the source does not return this
trace, it is bookkeeping for the theorems below. -/
structure LoopRes where
  dec : Decoder
  outputs : T3
  stop_tokens : T3
  alignments : T3
  mems : T3
  t : ℕ
  reason : StopReason
deriving Repr, DecidableEq

/-- The optional speaker-embedding concatenation performed inside the
free-running loop (`if speaker_embeddings is not None: ...`). -/
def addSpeaker (sp : Option Mat) (m : Mat) : Mat :=
  match sp with
  | some s => cat2 m s
  | none => m

/-- The `while True` loop of `Decoder.inference` (source lines 281–298).
`B` is `inputs.shape[0]`; each iteration prenets the fed-back memory,
optionally concatenates the speaker embedding, decodes, sigmoids the
stop-logit, appends to the per-step lists, breaks on
`stop_token > 0.7 and t > inputs.shape[0] / 2` or on
`len(outputs) == max_decoder_steps`, and otherwise feeds back
`_update_memory(decoder_output)` with `t += 1`.  The fuel argument is
instantiated with `max_decoder_steps`, which the ceiling branch makes
sufficient; `none` models the runs the source does not complete (an
ambiguous tensor truth value, or a ceiling of 0, which loops forever). -/
def inferLoop (c : Caps) (B : ℕ) (speaker : Option Mat) (fuel : ℕ) (d : Decoder)
    (memory : Mat) (outputs stop_tokens alignments mems : T3) (t : ℕ) :
    Option LoopRes :=
  match fuel with
  | 0 => none
  | fuel + 1 =>
    let memory1 := prenetM c memory
    let memory2 := addSpeaker speaker memory1
    let step := d.decode c memory2
    let d1 := step.1
    let decoder_output := step.2.1
    let alignment := step.2.2.1
    let stop_token := sigmoidT c step.2.2.2
    let outputs1 := outputs ++ [decoder_output]
    let stop_tokens1 := stop_tokens ++ [stop_token]
    let alignments1 := alignments ++ [alignment]
    let mems1 := mems ++ [memory]
    match truthGT stop_token (7/10) with
    | none => none
    | some gate =>
      if gate = true ∧ ((B : ℚ) / 2 < (t : ℚ)) then
        some ⟨d1, outputs1, stop_tokens1, alignments1, mems1, t, .gate⟩
      else if outputs1.length = d1.max_decoder_steps then
        some ⟨d1, outputs1, stop_tokens1, alignments1, mems1, t, .ceiling⟩
      else
        inferLoop c B speaker fuel d1
          (unt2 (d1.update_memory (.t2 decoder_output)))
          outputs1 stop_tokens1 alignments1 mems1 (t + 1)

/-- `Decoder.inference`: slice the go frame, reset the run state
(`attention.init_states` is internal to the attention capability), run the
free-running loop, and finally apply `_parse_outputs` (returned alongside
the loop trace; the source returns only the parsed triple, reordered as
`outputs, alignments, stop_tokens`). -/
def Decoder.inference (d : Decoder) (c : Caps) (inputs : T3)
    (speaker : Option Mat) : Option (LoopRes × Option (T3 × T3 × T3)) :=
  let memory := d.get_go_frame inputs
  let memory := unt2 (d.update_memory (.t2 memory))
  let d := d.init_states c inputs none false
  match inferLoop c inputs.length speaker d.max_decoder_steps d memory
      [] [] [] [] 0 with
  | none => none
  | some res =>
    some (res, res.dec.parse_outputs res.outputs res.stop_tokens res.alignments)

/-- The entry phase of `Decoder.inference_truncated` (source lines 309–316):
on the very first call (`memory_truncated is None`) install the go frame and
reset the state; afterwards keep the state.  `attention.init_win_idx` and
`attention.init_states` are internal to the attention capability. -/
def Decoder.truncated_entry (d : Decoder) (c : Caps) (inputs : T3) : Decoder :=
  if d.memory_truncated = none then
    ({ d with memory_truncated := some (d.get_go_frame inputs) }).init_states
      c inputs none false
  else
    d.init_states c inputs none true

/-- The `while True` loop of `Decoder.inference_truncated` (source lines
319–334).  Differs from the free-running loop in that the step input is the
`memory_truncated` buffer, the gate has no step-count guard, and the
feedback stores the raw `decoder_output` into `memory_truncated` without
`_update_memory` slicing.  (The local `stop_flags` list in the source is
dead and not modelled.) -/
def truncLoop (c : Caps) (fuel : ℕ) (d : Decoder)
    (outputs stop_tokens alignments mems : T3) (t : ℕ) : Option LoopRes :=
  match fuel with
  | 0 => none
  | fuel + 1 =>
    let memIn := d.memory_truncated.getD []
    let memory := prenetM c memIn
    let step := d.decode c memory
    let d1 := step.1
    let decoder_output := step.2.1
    let alignment := step.2.2.1
    let stop_token := sigmoidT c step.2.2.2
    let outputs1 := outputs ++ [decoder_output]
    let stop_tokens1 := stop_tokens ++ [stop_token]
    let alignments1 := alignments ++ [alignment]
    let mems1 := mems ++ [memIn]
    match truthGT stop_token (7/10) with
    | none => none
    | some gate =>
      if gate = true then
        some ⟨d1, outputs1, stop_tokens1, alignments1, mems1, t, .gate⟩
      else if outputs1.length = d1.max_decoder_steps then
        some ⟨d1, outputs1, stop_tokens1, alignments1, mems1, t, .ceiling⟩
      else
        truncLoop c fuel { d1 with memory_truncated := some decoder_output }
          outputs1 stop_tokens1 alignments1 mems1 (t + 1)

/-- `Decoder.inference_truncated`: the stateful streaming entry point. -/
def Decoder.inference_truncated (d : Decoder) (c : Caps) (inputs : T3) :
    Option (LoopRes × Option (T3 × T3 × T3)) :=
  let d := d.truncated_entry c inputs
  match truncLoop c d.max_decoder_steps d [] [] [] [] 0 with
  | none => none
  | some res =>
    some (res, res.dec.parse_outputs res.outputs res.stop_tokens res.alignments)

/-- `Decoder.inference_step`: the single-step debug entry point.  On step 0
it installs the go frame and resets the state; then it prenets the memory
and performs one decode.  The source unpacks `decode`'s return value
`(decoder_output, attention_weights, stop_token)` as
`decoder_output, stop_token, alignment`, so the name `stop_token` receives
the attention weights (to which the sigmoid is then applied) and the name
`alignment` receives the raw stop-logit; the returned triple reproduces
that faithfully.  `none` models calling with `t != 0` and no memory
(`prenet(None)` raises). -/
def Decoder.inference_step (d : Decoder) (c : Caps) (inputs : T3) (t : ℕ)
    (memoryArg : Option Mat) : Option (Decoder × Mat × Mat × Mat) :=
  let dm :=
    if t = 0 then (d.init_states c inputs none false, some (d.get_go_frame inputs))
    else (d, memoryArg)
  match dm.2 with
  | none => none
  | some memory =>
    let memory := prenetM c memory
    let step := dm.1.decode c memory
    let decoder_output := step.2.1
    let stop_token := step.2.2.1
    let alignment := step.2.2.2
    let stop_token := sigmoidT c stop_token
    some (step.1, decoder_output, stop_token, alignment)

/-- The `while len(outputs) < memories.size(0) - 1` loop of
`Decoder.forward` (source lines 262–267): step `len(outputs)` decodes
teacher group `memories[len(outputs)]`.  The stop-logit `(B, 1)` tensor is
stored `squeeze(1)`-ed as a `(B,)` vector (the stopnet output width is 1);
`decoder_output.squeeze(1)` is a no-op on a `(B, frame_dim * r)` tensor and
the output is stored as is.  Fuel is instantiated with `memories.size(0)`,
which bounds the iteration count. -/
def fwdLoop (c : Caps) (memories : T3) (fuel : ℕ) (d : Decoder)
    (outputs : T3) (stop_tokens : Mat) (alignments : T3) :
    Decoder × T3 × Mat × T3 :=
  match fuel with
  | 0 => (d, outputs, stop_tokens, alignments)
  | fuel + 1 =>
    if outputs.length < memories.length - 1 then
      let memory := memories.getD outputs.length []
      let step := d.decode c memory
      fwdLoop c memories fuel step.1
        (outputs ++ [step.2.1])
        (stop_tokens ++ [(step.2.2.2).map (fun row => row.getD 0 0)])
        (alignments ++ [step.2.2.1])
    else (d, outputs, stop_tokens, alignments)

/-- The state of a teacher-forced run when its loop exits, with `steps` the
number of decode steps executed. -/
structure FwdRes where
  dec : Decoder
  outputs : T3
  stop_tokens : Mat
  alignments : T3
  steps : ℕ
deriving Repr, DecidableEq

/-- `Decoder.forward`: the teacher-forced run.  Prepend the go frame
(`torch.cat` along the time axis requires the batch and width of every
ground-truth group to match the go frame's `(B, frame_dim * r)`; the
`Except.error` models the runtime error otherwise, as it does for the
`view` inside `_reshape_memory`), slice with `_update_memory`, optionally
concatenate speaker embeddings, prenet, reset state, drive the loop, and
parse.  The returned record additionally exposes the run trace. -/
def Decoder.forward (d : Decoder) (c : Caps) (inputs : T3) (memories : T3)
    (mask : Option Mat) (speaker : Option T3) :
    Except String (FwdRes × Option (T3 × Mat × T3)) :=
  let memory := d.get_go_frame inputs
  match d.reshape_memory memories with
  | none => .error "view: invalid shape"
  | some ms =>
    if ∀ m ∈ ms, m.length = memory.length ∧
        ∀ row ∈ m, row.length = d.frame_dim * d.r then
      let ms := memory :: ms
      let ms := unt3 (d.update_memory (.t3 ms))
      let ms :=
        match speaker with
        | some s => cat3 ms s
        | none => ms
      let ms := prenet3 c ms
      let d := d.init_states c inputs mask false
      let res := fwdLoop c ms ms.length d [] [] []
      .ok (⟨res.1, res.2.1, res.2.2.1, res.2.2.2, res.2.1.length⟩,
        res.1.parse_outputs res.2.1 res.2.2.1 res.2.2.2)
    else .error "cat: size mismatch"

/-- Spec-side comparator for `_update_memory` ("retains only the last
`frame_dim` elements along the trailing axis"): keep the final `fd` entries
of every innermost row. -/
def lastColumnsSpec (fd : ℕ) : Tensor → Tensor
  | .t2 m => .t2 (m.map (fun row => row.drop (row.length - fd)))
  | .t3 m => .t3 (m.map (fun x => x.map (fun row => row.drop (row.length - fd))))

/-- A concrete capability instantiation used to exercise the embedding on
closed inputs: a width-1 projection, a hot stopnet and a sigmoid kernel
frozen at 9/10 (above the 0.7 gate). -/
def capsA : Caps :=
  { prenetF := id
    preprocess_inputsF := id
    attention_rnnF := fun _ st => st
    attentionF := fun _ _ _ _ => ([[0]], [[1]])
    decoder_rnnF := fun _ st => st
    linear_projectionF := fun _ => [[0]]
    stopnetF := fun _ => [[1]]
    dropout_attnF := id
    dropout_decoderF := id
    sigmoidF := fun _ => 9/10 }

/-- Like `capsA` but with the sigmoid kernel frozen at 1/2 (below the 0.7
gate), so the stop-gate never fires. -/
def capsB : Caps :=
  { capsA with
    stopnetF := fun _ => [[0]]
    sigmoidF := fun _ => 1/2 }

/-- Like `capsA` but with distinguishable attention weights (`[[3]]`) and
stop-logit (`[[5]]`), and an injective sigmoid kernel, to observe which of
the two a caller returns where. -/
def capsC : Caps :=
  { capsA with
    attentionF := fun _ _ _ _ => ([[0]], [[3]])
    stopnetF := fun _ => [[5]]
    sigmoidF := fun v => v + 1 }

/-- Like `capsB` but with a width-2 projection whose halves differ, for
decoders built with `frame_dim * r_init = 2`. -/
def capsD : Caps :=
  { capsB with
    linear_projectionF := fun _ => [[4, 6]] }

/-- A batch-1 encoder memory of sequence length 10 (embedding width 1). -/
def inputsB1T10 : T3 := [List.replicate 10 [0]]

/-- A batch-1 encoder memory of sequence length 1 (embedding width 1). -/
def inputsB1T1 : T3 := [[[0]]]

/-- A batch-1 ground-truth spectrogram of 5 frames of width 2. -/
def truthT5 : T3 := [List.replicate 5 [0, 0]]

/-- A batch-1 ground-truth spectrogram of 4 frames of width 2. -/
def truthT4 : T3 := [List.replicate 4 [0, 0]]


/-- A decoder built with `frame_dim = 1`, `r = r_init = 2` (for the
reduction-factor claims). -/
def dW7 : Decoder := Decoder.init 1 1 2 false

/-- A decoder that already holds a truncated-memory buffer, as after a
previous streaming call. -/
def dW8 : Decoder :=
  { Decoder.init 1 1 1 false with memory_truncated := some [[1]] }

@[simp] theorem addSpeaker_none (m : Mat) : addSpeaker none m = m := rfl

@[simp] theorem addSpeaker_some (sp : Mat) (m : Mat) :
    addSpeaker (some sp) m = cat2 m sp := rfl

theorem ttranspose_length {α : Type} [Inhabited α] (x : List (List α)) :
    (ttranspose x).length = (x.headD []).length := by
  simp [ttranspose]

theorem length_of_mem_ttranspose {α : Type} [Inhabited α] {x : List (List α)}
    {row : List α} (h : row ∈ ttranspose x) : row.length = x.length := by
  simp only [ttranspose, List.mem_map, List.mem_range] at h
  obtain ⟨j, _, rfl⟩ := h
  simp

theorem mem_ttranspose_iff {α : Type} [Inhabited α] {x : List (List α)}
    {row : List α} :
    row ∈ ttranspose x ↔
      ∃ j, j < (x.headD []).length ∧ row = x.map (fun r => r.getD j default) := by
  simp only [ttranspose, List.mem_map, List.mem_range]
  constructor
  · rintro ⟨j, hj, rfl⟩; exact ⟨j, hj, rfl⟩
  · rintro ⟨j, hj, rfl⟩; exact ⟨j, hj, rfl⟩

theorem getD_mem {α : Type} {l : List α} {j : ℕ} (d : α) (h : j < l.length) :
    l.getD j d ∈ l := by
  rw [List.getD_eq_getElem l d h]
  exact List.getElem_mem h

/-- The total length of a join of rows of constant width. -/
theorem length_join_const {α : Type} {x : List (List α)} {w : ℕ}
    (h : ∀ row ∈ x, row.length = w) : x.flatten.length = x.length * w := by
  induction x with
  | nil => simp
  | cons a l ih =>
    simp only [List.flatten_cons, List.length_append, List.length_cons]
    rw [h a (by simp), ih (fun row hr => h row (by simp [hr]))]
    ring

theorem chunkList_nil {α : Type} (k : ℕ) : chunkList k ([] : List α) = [] := by
  rw [chunkList]; simp

theorem chunkList_cons_of_ne {α : Type} {k : ℕ} {l : List α} (hk : k ≠ 0)
    (hl : l ≠ []) : chunkList k l = l.take k :: chunkList k (l.drop k) := by
  rw [chunkList.eq_def]
  cases l with
  | nil => exact absurd rfl hl
  | cons a rest => simp [hk]

/-- Chunking a list whose length is an exact multiple of `k ≠ 0` yields
`length / k` chunks, each of length exactly `k`. -/
theorem chunkList_spec {α : Type} (k : ℕ) (hk : k ≠ 0) :
    ∀ (n : ℕ) (l : List α), l.length ≤ n → k ∣ l.length →
      (chunkList k l).length = l.length / k ∧
        ∀ c ∈ chunkList k l, c.length = k := by
  intro n
  induction n with
  | zero =>
    intro l hl _
    have : l = [] := by cases l <;> simp_all
    subst this
    simp [chunkList_nil]
  | succ n ih =>
    intro l hl hd
    by_cases hnil : l = []
    · subst hnil; simp [chunkList_nil]
    · rw [chunkList_cons_of_ne hk hnil]
      have hk0 : 0 < k := Nat.pos_of_ne_zero hk
      have hlen : 0 < l.length := List.length_pos.mpr hnil
      have hkl : k ≤ l.length := Nat.le_of_dvd hlen hd
      have hdrop : (l.drop k).length = l.length - k := List.length_drop k l
      have hd' : k ∣ (l.drop k).length := by
        rw [hdrop]; exact Nat.dvd_sub' hd dvd_rfl
      have hle : (l.drop k).length ≤ n := by rw [hdrop]; omega
      obtain ⟨h1, h2⟩ := ih (l.drop k) hle hd'
      obtain ⟨m, hm⟩ := hd
      have hm0 : 0 < m := by
        rcases Nat.eq_zero_or_pos m with h | h
        · exfalso; rw [h, Nat.mul_zero] at hm; omega
        · exact h
      have hsub : l.length - k = k * (m - 1) := by
        obtain ⟨m', rfl⟩ := Nat.exists_eq_add_of_lt hm0
        simp only [Nat.zero_add] at hm
        rw [hm, Nat.mul_succ, Nat.add_sub_cancel, Nat.add_sub_cancel, Nat.zero_add]
      constructor
      · rw [List.length_cons, h1, hdrop, hsub, hm,
          Nat.mul_div_cancel_left _ hk0, Nat.mul_div_cancel_left _ hk0]
        omega
      · intro c hc
        rcases List.mem_cons.mp hc with h | h
        · subst h; rw [List.length_take]; omega
        · exact h2 c h

theorem chunkList_length {α : Type} {k : ℕ} {l : List α} (hk : k ≠ 0)
    (hd : k ∣ l.length) : (chunkList k l).length = l.length / k :=
  (chunkList_spec k hk l.length l le_rfl hd).1

theorem chunkList_mem_length {α : Type} {k : ℕ} {l : List α} (hk : k ≠ 0)
    (hd : k ∣ l.length) : ∀ c ∈ chunkList k l, c.length = k :=
  (chunkList_spec k hk l.length l le_rfl hd).2

@[simp] theorem decode_dec_max (d : Decoder) (c : Caps) (m : Mat) :
    (d.decode c m).1.max_decoder_steps = d.max_decoder_steps := rfl

@[simp] theorem decode_dec_frame_dim (d : Decoder) (c : Caps) (m : Mat) :
    (d.decode c m).1.frame_dim = d.frame_dim := rfl

@[simp] theorem decode_dec_r (d : Decoder) (c : Caps) (m : Mat) :
    (d.decode c m).1.r = d.r := rfl

@[simp] theorem decode_dec_r_init (d : Decoder) (c : Caps) (m : Mat) :
    (d.decode c m).1.r_init = d.r_init := rfl

@[simp] theorem decode_dec_memory_truncated (d : Decoder) (c : Caps) (m : Mat) :
    (d.decode c m).1.memory_truncated = d.memory_truncated := rfl

@[simp] theorem init_states_max (d : Decoder) (c : Caps) (i : T3) (mk : Option Mat)
    (ks : Bool) : (d.init_states c i mk ks).max_decoder_steps = d.max_decoder_steps := by
  unfold Decoder.init_states; cases ks <;> rfl

@[simp] theorem init_states_frame_dim (d : Decoder) (c : Caps) (i : T3)
    (mk : Option Mat) (ks : Bool) :
    (d.init_states c i mk ks).frame_dim = d.frame_dim := by
  unfold Decoder.init_states; cases ks <;> rfl

@[simp] theorem init_states_r (d : Decoder) (c : Caps) (i : T3) (mk : Option Mat)
    (ks : Bool) : (d.init_states c i mk ks).r = d.r := by
  unfold Decoder.init_states; cases ks <;> rfl

@[simp] theorem init_states_r_init (d : Decoder) (c : Caps) (i : T3) (mk : Option Mat)
    (ks : Bool) : (d.init_states c i mk ks).r_init = d.r_init := by
  unfold Decoder.init_states; cases ks <;> rfl

@[simp] theorem init_states_memory_truncated (d : Decoder) (c : Caps) (i : T3)
    (mk : Option Mat) (ks : Bool) :
    (d.init_states c i mk ks).memory_truncated = d.memory_truncated := by
  unfold Decoder.init_states; cases ks <;> rfl

@[simp] theorem truncated_entry_max (d : Decoder) (c : Caps) (i : T3) :
    (d.truncated_entry c i).max_decoder_steps = d.max_decoder_steps := by
  unfold Decoder.truncated_entry; split <;> simp

/-- Every accumulator a terminating inference loop run returns extends the
accumulator it was started with. -/
theorem inferLoop_extends (c : Caps) (B : ℕ) (sp : Option Mat) :
    ∀ (fuel : ℕ) (d : Decoder) (mem : Mat) (os st al ms : T3) (t : ℕ)
      (res : LoopRes),
      inferLoop c B sp fuel d mem os st al ms t = some res →
      (∃ tl, res.outputs = os ++ tl) ∧ (∃ tl, res.mems = ms ++ tl) := by
  intro fuel
  induction fuel with
  | zero => intro d mem os st al ms t res h; exact absurd h (by simp [inferLoop])
  | succ fuel ih =>
    intro d mem os st al ms t res h
    simp only [inferLoop] at h
    split at h
    · exact absurd h (by simp)
    · split at h
      · cases h
        exact ⟨⟨_, rfl⟩, ⟨_, rfl⟩⟩
      · split at h
        · cases h
          exact ⟨⟨_, rfl⟩, ⟨_, rfl⟩⟩
        · obtain ⟨⟨tl1, h1⟩, ⟨tl2, h2⟩⟩ := ih _ _ _ _ _ _ _ _ h
          rw [List.append_assoc] at h1 h2
          exact ⟨⟨_, h1⟩, ⟨_, h2⟩⟩

/-- The stop-logit a decode step returns is the stopnet applied to some
input (the `detach` branch does not change the value). -/
theorem decode_stop_is_stopnet (d : Decoder) (c : Caps) (m : Mat) :
    ∃ x, (d.decode c m).2.2.2 = c.stopnetF x :=
  ⟨_, ite_self _⟩

/-- The frame-group a decode step returns is the first `r * frame_dim`
columns of the static linear projection's output. -/
theorem decode_output_is_take (d : Decoder) (c : Caps) (m : Mat) :
    ∃ y, (d.decode c m).2.1 =
      (c.linear_projectionF y).map (List.take (d.r * d.frame_dim)) :=
  ⟨_, rfl⟩

/-- Row widths of a decode step's frame-group, given the projection's
static output width `frame_dim * r_init` and `r ≤ r_init`. -/
theorem decode_output_rows (d : Decoder) (c : Caps) (m : Mat)
    (H : ∀ x, ∀ row ∈ c.linear_projectionF x,
      row.length = d.frame_dim * d.r_init)
    (hrr : d.r ≤ d.r_init) :
    ∀ row ∈ (d.decode c m).2.1, row.length = d.frame_dim * d.r := by
  obtain ⟨y, hy⟩ := decode_output_is_take d c m
  rw [hy]
  intro row hrow
  obtain ⟨row1, hr1, rfl⟩ := List.mem_map.1 hrow
  rw [List.length_take, H y row1 hr1]
  rw [Nat.mul_comm d.r d.frame_dim]
  exact Nat.min_eq_left (Nat.mul_le_mul_left _ hrr)

/-- If an inference loop with at least one unit of fuel returns, its memory
trace starts with the accumulated trace followed by the memory this call
fed to its first step. -/
theorem inferLoop_mems_cons (c : Caps) (B : ℕ) (sp : Option Mat) (fuel : ℕ)
    (d : Decoder) (mem : Mat) (os st al ms : T3) (t : ℕ) (res : LoopRes)
    (h : inferLoop c B sp (fuel + 1) d mem os st al ms t = some res) :
    ∃ tl, res.mems = ms ++ mem :: tl := by
  simp only [inferLoop] at h
  split at h
  · exact absurd h (by simp)
  · split at h
    · cases h; exact ⟨[], by simp⟩
    · split at h
      · cases h; exact ⟨[], by simp⟩
      · obtain ⟨_, ⟨tl, htl⟩⟩ := inferLoop_extends c B sp _ _ _ _ _ _ _ _ _ h
        exact ⟨tl, by simpa using htl⟩

/-- As `inferLoop_mems_cons`, and with the first decoded frame-group at the
head of the output accumulation (speaker-free form). -/
theorem inferLoop_outputs_cons (c : Caps) (B : ℕ) (fuel : ℕ)
    (d : Decoder) (mem : Mat) (os st al ms : T3) (t : ℕ) (res : LoopRes)
    (h : inferLoop c B none (fuel + 1) d mem os st al ms t = some res) :
    ∃ tl, res.outputs = os ++ (d.decode c (prenetM c mem)).2.1 :: tl := by
  simp only [inferLoop] at h
  split at h
  · exact absurd h (by simp)
  · split at h
    · cases h; exact ⟨[], by simp⟩
    · split at h
      · cases h; exact ⟨[], by simp⟩
      · obtain ⟨⟨tl, htl⟩, _⟩ := inferLoop_extends c B none _ _ _ _ _ _ _ _ _ h
        exact ⟨tl, by simpa using htl⟩

/-- Every accumulator a terminating truncated loop run returns extends the
accumulator it was started with. -/
theorem truncLoop_extends (c : Caps) :
    ∀ (fuel : ℕ) (d : Decoder) (os st al ms : T3) (t : ℕ) (res : LoopRes),
      truncLoop c fuel d os st al ms t = some res →
      (∃ tl, res.outputs = os ++ tl) ∧ (∃ tl, res.mems = ms ++ tl) := by
  intro fuel
  induction fuel with
  | zero => intro d os st al ms t res h; exact absurd h (by simp [truncLoop])
  | succ fuel ih =>
    intro d os st al ms t res h
    simp only [truncLoop] at h
    split at h
    · exact absurd h (by simp)
    · split at h
      · cases h
        exact ⟨⟨_, rfl⟩, ⟨_, rfl⟩⟩
      · split at h
        · cases h
          exact ⟨⟨_, rfl⟩, ⟨_, rfl⟩⟩
        · obtain ⟨⟨tl1, h1⟩, ⟨tl2, h2⟩⟩ := ih _ _ _ _ _ _ _ h
          rw [List.append_assoc] at h1 h2
          exact ⟨⟨_, h1⟩, ⟨_, h2⟩⟩

/-- If a truncated loop with at least one unit of fuel returns, its memory
trace continues with the `memory_truncated` buffer it read first, and its
output accumulation with the first decoded frame-group. -/
theorem truncLoop_cons (c : Caps) (fuel : ℕ) (d : Decoder)
    (os st al ms : T3) (t : ℕ) (res : LoopRes)
    (h : truncLoop c (fuel + 1) d os st al ms t = some res) :
    (∃ tl, res.mems = ms ++ (d.memory_truncated.getD []) :: tl) ∧
      ∃ tl, res.outputs =
        os ++ (d.decode c (prenetM c (d.memory_truncated.getD []))).2.1 :: tl := by
  simp only [truncLoop] at h
  split at h
  · exact absurd h (by simp)
  · split at h
    · cases h; exact ⟨⟨[], by simp⟩, ⟨[], by simp⟩⟩
    · split at h
      · cases h; exact ⟨⟨[], by simp⟩, ⟨[], by simp⟩⟩
      · obtain ⟨⟨tl1, h1⟩, ⟨tl2, h2⟩⟩ := truncLoop_extends c _ _ _ _ _ _ _ _ h
        exact ⟨⟨tl2, by simpa using h2⟩, ⟨tl1, by simpa using h1⟩⟩

/-- If the stop-gate can never fire (the sigmoided stopnet output always
compares `some false` against 0.7), a free-running loop started `fuel` steps
below the ceiling `M` runs exactly to the ceiling and exits through the
diagnostic branch. -/
theorem inferLoop_never_gate (c : Caps) (B : ℕ) (sp : Option Mat)
    (Hstop : ∀ x, truthGT (sigmoidT c (c.stopnetF x)) (7/10) = some false) :
    ∀ (fuel : ℕ) (d : Decoder) (mem : Mat) (os st al ms : T3) (t : ℕ) (M : ℕ),
      d.max_decoder_steps = M →
      os.length + fuel = M →
      os.length < M →
      ∃ res, inferLoop c B sp fuel d mem os st al ms t = some res ∧
        res.outputs.length = M ∧ res.reason = .ceiling := by
  intro fuel
  induction fuel with
  | zero => intro d mem os st al ms t M hM h1 h2; omega
  | succ fuel ih =>
    intro d mem os st al ms t M hM h1 h2
    obtain ⟨x, hx⟩ := decode_stop_is_stopnet d c (addSpeaker sp (prenetM c mem))
    simp only [inferLoop, hx, Hstop x, Bool.false_eq_true, false_and, if_false,
      decode_dec_max, hM]
    split
    · next hcond =>
      refine ⟨_, rfl, ?_, rfl⟩
      exact hcond
    · next hcond =>
      rw [List.length_append, List.length_cons, List.length_nil] at hcond
      refine ih _ _ _ _ _ _ _ M ?_ ?_ ?_
      · simp only [decode_dec_max, hM]
      · simp only [List.length_append, List.length_cons, List.length_nil]
        omega
      · simp only [List.length_append, List.length_cons, List.length_nil]
        omega

/-- As `inferLoop_never_gate`, for the truncated loop. -/
theorem truncLoop_never_gate (c : Caps)
    (Hstop : ∀ x, truthGT (sigmoidT c (c.stopnetF x)) (7/10) = some false) :
    ∀ (fuel : ℕ) (d : Decoder) (os st al ms : T3) (t : ℕ) (M : ℕ),
      d.max_decoder_steps = M →
      os.length + fuel = M →
      os.length < M →
      ∃ res, truncLoop c fuel d os st al ms t = some res ∧
        res.outputs.length = M ∧ res.reason = .ceiling := by
  intro fuel
  induction fuel with
  | zero => intro d os st al ms t M hM h1 h2; omega
  | succ fuel ih =>
    intro d os st al ms t M hM h1 h2
    obtain ⟨x, hx⟩ := decode_stop_is_stopnet d c
      (prenetM c (d.memory_truncated.getD []))
    simp only [truncLoop, hx, Hstop x, Bool.false_eq_true, if_false,
      decode_dec_max, hM]
    split
    · next hcond =>
      refine ⟨_, rfl, ?_, rfl⟩
      exact hcond
    · next hcond =>
      rw [List.length_append, List.length_cons, List.length_nil] at hcond
      refine ih _ _ _ _ _ _ M ?_ ?_ ?_
      · simp only [decode_dec_max, hM]
      · simp only [List.length_append, List.length_cons, List.length_nil]
        omega
      · simp only [List.length_append, List.length_cons, List.length_nil]
        omega

/-- The teacher-forced loop, given enough fuel, stops with exactly
`memories.size(0) - 1` collected outputs (or keeps an already-long-enough
accumulation). -/
theorem fwdLoop_length (c : Caps) (memories : T3) :
    ∀ (fuel : ℕ) (d : Decoder) (os : T3) (st : Mat) (al : T3),
      memories.length - 1 ≤ os.length + fuel →
      (fwdLoop c memories fuel d os st al).2.1.length =
        max os.length (memories.length - 1) := by
  intro fuel
  induction fuel with
  | zero =>
    intro d os st al h
    show os.length = max os.length (memories.length - 1)
    omega
  | succ fuel ih =>
    intro d os st al h
    simp only [fwdLoop]
    split
    · next hlt =>
      rw [ih _ _ _ _ (by simp only [List.length_append, List.length_cons,
        List.length_nil]; omega)]
      simp only [List.length_append, List.length_cons, List.length_nil]
      omega
    · next hge =>
      show os.length = max os.length (memories.length - 1)
      omega

/-- C4: for every reduction factor `r ≥ 1` and every 2- or 3-axis tensor
whose innermost rows have width `frame_dim * r`, `_update_memory` returns
exactly the last `frame_dim` columns along the trailing axis. -/
theorem C4_update_memory_keeps_last_columns (d : Decoder) (m : Tensor)
    (hr : 1 ≤ d.r)
    (hw : ∀ row ∈ m.rows, row.length = d.frame_dim * d.r) :
    d.update_memory m = lastColumnsSpec d.frame_dim m := by
  have key : ∀ row : Vec, row.length = d.frame_dim * d.r →
      List.drop (d.frame_dim * (d.r - 1)) row =
        row.drop (row.length - d.frame_dim) := by
    intro row hlen
    rw [hlen, Nat.mul_sub_one]
  cases m with
  | t2 mm =>
    simp only [Decoder.update_memory, lastColumnsSpec, Tensor.t2.injEq]
    exact List.map_congr_left (fun row hrow => key row (hw row hrow))
  | t3 mm =>
    simp only [Decoder.update_memory, lastColumnsSpec, Tensor.t3.injEq]
    refine List.map_congr_left (fun x hx => ?_)
    refine List.map_congr_left (fun row hrow => ?_)
    refine key row (hw row ?_)
    show row ∈ mm.flatten
    exact List.mem_flatten.2 ⟨x, hx, hrow⟩

/-- Witness for C4 at `frame_dim = 1`, `r = 2`, on the 2-axis tensor
`[[1, 2]]`: the kept columns are `[[2]]`. -/
theorem C4_update_memory_keeps_last_columns_witness :
    1 ≤ dW7.r ∧
      (∀ row ∈ (Tensor.t2 [[1, 2]]).rows,
        row.length = dW7.frame_dim * dW7.r) ∧
      dW7.update_memory (.t2 [[1, 2]]) =
        lastColumnsSpec dW7.frame_dim (.t2 [[1, 2]]) :=
  ⟨by decide, by decide,
    C4_update_memory_keeps_last_columns dW7 (.t2 [[1, 2]]) (by decide) (by decide)⟩

/-- C1 fails on the code: the stop-gate guard compares the step counter
against `inputs.shape[0] / 2` — the batch axis — not against half the input
sequence length (`inputs.size(1)`, the axis the code itself labels `T` in
`_init_states`).  Concretely, with batch 1 and input sequence length 10 and
a stop sigmoid frozen at 9/10, the free-running run exits through the
stop-gate at `t = 1` after 2 decode steps, although half the input length
is 5 and `10 / 2 < 1` is false. -/
theorem C1_gate_uses_batch_not_input_length :
    ((Decoder.init 1 1 1 false).inference capsA inputsB1T10 none).map
        (fun p => (p.1.t, p.1.reason, p.1.outputs.length)) =
      some (1, .gate, 2) ∧
    inputsB1T10.length = 1 ∧ (inputsB1T10.headD []).length = 10 ∧
    ¬ ((10 : ℚ) / 2 < (1 : ℚ)) :=
  ⟨by with_unfolding_all rfl, rfl, rfl, by norm_num⟩

/-- C2 fails on the code: `inference_step` unpacks `decode`'s return value
`(decoder_output, attention_weights, stop_token)` in the wrong order, so it
returns the *sigmoided attention weights* in the stop-token position and
the *raw stop-logit* in the alignment position.  With `capsC` (attention
weights `[[3]]`, stop-logit `[[5]]`, sigmoid kernel `v + 1`), the returned
pair is `(sigmoid [[3]], [[5]]) = ([[4]], [[5]])`; the claim instead
requires `(sigmoid [[5]], [[3]]) = ([[6]], [[3]])`. -/
theorem C2_inference_step_returns_swapped_fields :
    ((Decoder.init 1 1 1 false).inference_step capsC inputsB1T1 0 none).map
        (fun p => (p.2.2.1, p.2.2.2)) = some ([[4]], [[5]]) ∧
    sigmoidT capsC [[3]] = [[4]] ∧ sigmoidT capsC [[5]] = [[6]] ∧
    (([[4]], [[5]]) : Mat × Mat) ≠ (([[6]], [[3]]) : Mat × Mat) :=
  ⟨by with_unfolding_all rfl, by with_unfolding_all rfl,
    by with_unfolding_all rfl, by with_unfolding_all decide⟩

/-- C8: the truncated/streaming entry phase resets the five recurrent-state
fields to zeros exactly when no truncated-memory buffer exists yet (the
very first call); on every later call it leaves all five unchanged. -/
theorem C8_truncated_entry_resets_only_first_call (d : Decoder) (c : Caps)
    (inputs : T3) :
    (∀ m, d.memory_truncated = some m →
      (d.truncated_entry c inputs).query = d.query ∧
      (d.truncated_entry c inputs).attention_rnn_cell_state =
        d.attention_rnn_cell_state ∧
      (d.truncated_entry c inputs).decoder_hidden = d.decoder_hidden ∧
      (d.truncated_entry c inputs).decoder_cell = d.decoder_cell ∧
      (d.truncated_entry c inputs).context = d.context) ∧
    (d.memory_truncated = none →
      (d.truncated_entry c inputs).query = zerosM inputs.length d.query_dim ∧
      (d.truncated_entry c inputs).attention_rnn_cell_state =
        zerosM inputs.length d.query_dim ∧
      (d.truncated_entry c inputs).decoder_hidden =
        zerosM inputs.length d.decoder_rnn_dim ∧
      (d.truncated_entry c inputs).decoder_cell =
        zerosM inputs.length d.decoder_rnn_dim ∧
      (d.truncated_entry c inputs).context =
        zerosM inputs.length d.encoder_embedding_dim) := by
  constructor
  · intro m hm
    unfold Decoder.truncated_entry
    rw [if_neg (by simp [hm])]
    unfold Decoder.init_states
    simp
  · intro hm
    unfold Decoder.truncated_entry
    rw [if_pos hm]
    unfold Decoder.init_states
    simp

/-- Witness for C8 on a decoder that already holds a truncated-memory
buffer: the entry phase leaves its recurrent state untouched. -/
theorem C8_truncated_entry_resets_only_first_call_witness :
    (dW8.truncated_entry capsA inputsB1T1).query = dW8.query ∧
    (dW8.truncated_entry capsA inputsB1T1).attention_rnn_cell_state =
      dW8.attention_rnn_cell_state ∧
    (dW8.truncated_entry capsA inputsB1T1).decoder_hidden =
      dW8.decoder_hidden ∧
    (dW8.truncated_entry capsA inputsB1T1).decoder_cell = dW8.decoder_cell ∧
    (dW8.truncated_entry capsA inputsB1T1).context = dW8.context :=
  (C8_truncated_entry_resets_only_first_call dW8 capsA inputsB1T1).1 [[1]] rfl

/-- The frame-groups two decode steps produce after `set_r a` and `set_r b`
are prefixes of one and the same static projection output. -/
theorem decode_set_r_proj (d : Decoder) (c : Caps) (m : Mat) (a b : ℕ) :
    ∃ y, ((d.set_r a).decode c m).2.1 =
        (c.linear_projectionF y).map (List.take (a * d.frame_dim)) ∧
      ((d.set_r b).decode c m).2.1 =
        (c.linear_projectionF y).map (List.take (b * d.frame_dim)) :=
  ⟨_, rfl, rfl⟩

/-- C7: `set_r` mutates only the reduction factor `r` — every other field,
including all recorded learned-parameter shapes, is unchanged — and a
subsequent decode step still produces the static `frame_dim * r_init`-wide
projection, of which the first `frame_dim * new_r` values are kept. -/
theorem C7_set_r_changes_only_r (d : Decoder) (c : Caps) (m : Mat) (new_r : ℕ)
    (Hproj : ∀ x, ∀ row ∈ c.linear_projectionF x,
      row.length = d.frame_dim * d.r_init)
    (hle : new_r ≤ d.r_init) :
    ((d.set_r new_r).r = new_r ∧
     (d.set_r new_r).frame_dim = d.frame_dim ∧
     (d.set_r new_r).r_init = d.r_init ∧
     (d.set_r new_r).encoder_embedding_dim = d.encoder_embedding_dim ∧
     (d.set_r new_r).separate_stopnet = d.separate_stopnet ∧
     (d.set_r new_r).max_decoder_steps = d.max_decoder_steps ∧
     (d.set_r new_r).gate_threshold = d.gate_threshold ∧
     (d.set_r new_r).query_dim = d.query_dim ∧
     (d.set_r new_r).decoder_rnn_dim = d.decoder_rnn_dim ∧
     (d.set_r new_r).prenet_dim = d.prenet_dim ∧
     (d.set_r new_r).attn_dim = d.attn_dim ∧
     (d.set_r new_r).p_attention_dropout = d.p_attention_dropout ∧
     (d.set_r new_r).p_decoder_dropout = d.p_decoder_dropout ∧
     (d.set_r new_r).prenet_in_features = d.prenet_in_features ∧
     (d.set_r new_r).prenet_out_features = d.prenet_out_features ∧
     (d.set_r new_r).attention_rnn_in_features = d.attention_rnn_in_features ∧
     (d.set_r new_r).attention_rnn_out_features =
       d.attention_rnn_out_features ∧
     (d.set_r new_r).proj_in_features = d.proj_in_features ∧
     (d.set_r new_r).proj_out_features = d.proj_out_features ∧
     (d.set_r new_r).stopnet_in_features = d.stopnet_in_features ∧
     (d.set_r new_r).stopnet_out_features = d.stopnet_out_features ∧
     (d.set_r new_r).memory_truncated = d.memory_truncated ∧
     (d.set_r new_r).query = d.query ∧
     (d.set_r new_r).attention_rnn_cell_state = d.attention_rnn_cell_state ∧
     (d.set_r new_r).decoder_hidden = d.decoder_hidden ∧
     (d.set_r new_r).decoder_cell = d.decoder_cell ∧
     (d.set_r new_r).context = d.context ∧
     (d.set_r new_r).inputs = d.inputs ∧
     (d.set_r new_r).processed_inputs = d.processed_inputs ∧
     (d.set_r new_r).mask = d.mask) ∧
    ((d.set_r new_r).decode c m).2.1 =
      (((d.set_r d.r_init).decode c m).2.1).map
        (List.take (d.frame_dim * new_r)) ∧
    (∀ row ∈ ((d.set_r new_r).decode c m).2.1,
      row.length = d.frame_dim * new_r) := by
  obtain ⟨y, hy1, hy2⟩ := decode_set_r_proj d c m new_r d.r_init
  refine ⟨?_, ?_, ?_⟩
  · exact ⟨rfl, rfl, rfl, rfl, rfl, rfl, rfl, rfl, rfl, rfl, rfl, rfl, rfl,
      rfl, rfl, rfl, rfl, rfl, rfl, rfl, rfl, rfl, rfl, rfl, rfl, rfl, rfl,
      rfl, rfl, rfl⟩
  · rw [hy1, hy2, List.map_map]
    refine List.map_congr_left (fun x hx => ?_)
    show List.take (new_r * d.frame_dim) x =
      List.take (d.frame_dim * new_r) (List.take (d.r_init * d.frame_dim) x)
    rw [List.take_take, Nat.mul_comm d.frame_dim new_r,
      Nat.min_eq_left (Nat.mul_le_mul_right _ hle)]
  · intro row hrow
    rw [hy1] at hrow
    obtain ⟨row1, hr1, rfl⟩ := List.mem_map.1 hrow
    rw [List.length_take, Hproj y row1 hr1, Nat.mul_comm new_r d.frame_dim]
    exact Nat.min_eq_left (Nat.mul_le_mul_left _ hle)

/-- Witness for C7 on a decoder with `frame_dim = 1`, `r_init = 2` and a
width-2 projection: after `set_r 1` the decode step keeps the first column
of the same projection. -/
theorem C7_set_r_changes_only_r_witness :
    ((dW7.set_r 1).r = 1 ∧ (dW7.set_r 1).proj_out_features =
      dW7.proj_out_features) ∧
    ((dW7.set_r 1).decode capsD [[0]]).2.1 =
      (((dW7.set_r dW7.r_init).decode capsD [[0]]).2.1).map
        (List.take (dW7.frame_dim * 1)) ∧
    (∀ row ∈ ((dW7.set_r 1).decode capsD [[0]]).2.1,
      row.length = dW7.frame_dim * 1) := by
  have H := C7_set_r_changes_only_r dW7 capsD [[0]] 1
    (fun x row hrow => by
      rw [show capsD.linear_projectionF x = [[4, 6]] from rfl] at hrow
      rw [List.mem_singleton.1 hrow]
      rfl)
    (by decide)
  exact ⟨⟨H.1.1, rfl⟩, H.2.1, H.2.2⟩

/-- C3: when the stop-gate can never fire (the sigmoided stop-logit always
compares below 0.7), both free-running and truncated inference on a freshly
constructed decoder terminate with exactly 1,000,000 collected decode steps,
exiting through the diagnostic-notice branch rather than looping forever or
erroring. -/
theorem C3_both_modes_stop_at_ceiling (input_dim frame_dim r : ℕ) (sep : Bool)
    (c : Caps) (inputs : T3) (sp : Option Mat)
    (Hstop : ∀ x, truthGT (sigmoidT c (c.stopnetF x)) (7/10) = some false) :
    (∃ res p, (Decoder.init input_dim frame_dim r sep).inference c inputs sp =
        some (res, p) ∧
      res.outputs.length = 1000000 ∧ res.reason = .ceiling) ∧
    (∃ res p,
      (Decoder.init input_dim frame_dim r sep).inference_truncated c inputs =
        some (res, p) ∧
      res.outputs.length = 1000000 ∧ res.reason = .ceiling) := by
  constructor
  · have hd : ((Decoder.init input_dim frame_dim r sep).init_states c inputs
        none false).max_decoder_steps = 1000000 := by
      rw [init_states_max]; rfl
    obtain ⟨res, hres, hlen, hreas⟩ :=
      inferLoop_never_gate c inputs.length sp Hstop
        ((Decoder.init input_dim frame_dim r sep).init_states c inputs none
          false).max_decoder_steps
        ((Decoder.init input_dim frame_dim r sep).init_states c inputs none
          false)
        (unt2 ((Decoder.init input_dim frame_dim r sep).update_memory
          (.t2 ((Decoder.init input_dim frame_dim r sep).get_go_frame inputs))))
        [] [] [] [] 0 1000000 hd (by simpa using hd) (by simp)
    simp only [Decoder.inference]
    rw [hres]
    exact ⟨res, _, rfl, hlen, hreas⟩
  · have hd : ((Decoder.init input_dim frame_dim r sep).truncated_entry c
        inputs).max_decoder_steps = 1000000 := by
      rw [truncated_entry_max]; rfl
    obtain ⟨res, hres, hlen, hreas⟩ :=
      truncLoop_never_gate c Hstop
        ((Decoder.init input_dim frame_dim r sep).truncated_entry c
          inputs).max_decoder_steps
        ((Decoder.init input_dim frame_dim r sep).truncated_entry c inputs)
        [] [] [] [] 0 1000000 hd (by simpa using hd) (by simp)
    simp only [Decoder.inference_truncated]
    rw [hres]
    exact ⟨res, _, rfl, hlen, hreas⟩

/-- Witness for C3 with the cold stop capabilities `capsB` (stopnet output
`[[0]]`, sigmoid frozen at 1/2 < 0.7). -/
theorem C3_both_modes_stop_at_ceiling_witness :
    (∃ res p, (Decoder.init 1 1 1 false).inference capsB inputsB1T1 none =
        some (res, p) ∧
      res.outputs.length = 1000000 ∧ res.reason = .ceiling) ∧
    (∃ res p, (Decoder.init 1 1 1 false).inference_truncated capsB inputsB1T1 =
        some (res, p) ∧
      res.outputs.length = 1000000 ∧ res.reason = .ceiling) :=
  C3_both_modes_stop_at_ceiling 1 1 1 false capsB inputsB1T1 none
    (fun x => by with_unfolding_all rfl)

@[simp] theorem truncated_entry_frame_dim (d : Decoder) (c : Caps) (i : T3) :
    (d.truncated_entry c i).frame_dim = d.frame_dim := by
  unfold Decoder.truncated_entry; split <;> simp

@[simp] theorem truncated_entry_r (d : Decoder) (c : Caps) (i : T3) :
    (d.truncated_entry c i).r = d.r := by
  unfold Decoder.truncated_entry; split <;> simp

@[simp] theorem truncated_entry_r_init (d : Decoder) (c : Caps) (i : T3) :
    (d.truncated_entry c i).r_init = d.r_init := by
  unfold Decoder.truncated_entry; split <;> simp

/-- If a speaker-free free-running loop with two steps of headroom below
the ceiling returns under a cold stop-gate, the second entry of its memory
trace is the `_update_memory` slice of the first step's decode output. -/
theorem inferLoop_mems_second (c : Caps) (B : ℕ)
    (Hstop : ∀ x, truthGT (sigmoidT c (c.stopnetF x)) (7/10) = some false)
    (fuel : ℕ) (d : Decoder) (mem : Mat) (os st al ms : T3) (t : ℕ)
    (res : LoopRes)
    (hroom : os.length + 2 ≤ d.max_decoder_steps)
    (h : inferLoop c B none (fuel + 1) d mem os st al ms t = some res) :
    ∃ tl, res.mems = ms ++ mem ::
      (unt2 ((d.decode c (prenetM c mem)).1.update_memory
        (.t2 (d.decode c (prenetM c mem)).2.1))) :: tl := by
  obtain ⟨x, hx⟩ := decode_stop_is_stopnet d c (prenetM c mem)
  simp only [inferLoop, addSpeaker_none, hx, Hstop x, Bool.false_eq_true,
    false_and, if_false, decode_dec_max] at h
  split at h
  · next hcond =>
    rw [List.length_append, List.length_cons, List.length_nil] at hcond
    omega
  · next hcond =>
    cases fuel with
    | zero => exact absurd h (by simp [inferLoop])
    | succ fuel =>
      obtain ⟨tl, htl⟩ := inferLoop_mems_cons c B none fuel _ _ _ _ _ _ _ _ h
      exact ⟨tl, by simpa using htl⟩

/-- If a truncated loop with two steps of headroom below the ceiling
returns under a cold stop-gate, the second entry of its memory trace is the
raw (unsliced) decode output of the first step, which the loop stored into
`memory_truncated`. -/
theorem truncLoop_mems_second (c : Caps)
    (Hstop : ∀ x, truthGT (sigmoidT c (c.stopnetF x)) (7/10) = some false)
    (fuel : ℕ) (d : Decoder) (os st al ms : T3) (t : ℕ) (res : LoopRes)
    (hroom : os.length + 2 ≤ d.max_decoder_steps)
    (h : truncLoop c (fuel + 1) d os st al ms t = some res) :
    ∃ tl, res.mems = ms ++ (d.memory_truncated.getD []) ::
      (d.decode c (prenetM c (d.memory_truncated.getD []))).2.1 :: tl := by
  obtain ⟨x, hx⟩ := decode_stop_is_stopnet d c
    (prenetM c (d.memory_truncated.getD []))
  simp only [truncLoop, hx, Hstop x, Bool.false_eq_true, if_false,
    decode_dec_max] at h
  split at h
  · next hcond =>
    rw [List.length_append, List.length_cons, List.length_nil] at hcond
    omega
  · next hcond =>
    cases fuel with
    | zero => exact absurd h (by simp [truncLoop])
    | succ fuel =>
      obtain ⟨⟨tl, htl⟩, _⟩ := truncLoop_cons c fuel _ _ _ _ _ _ _ h
      exact ⟨tl, by simpa using htl⟩

/-- C9: under a cold stop-gate, in a truncated/streaming run the frame-group
fed into the second step is the raw decode output of the first step (full
width `frame_dim * r`, stored unsliced into `memory_truncated`), while a
free-running run feeds the `_update_memory` slice of its first output — the
last `frame_dim` columns. -/
theorem C9_truncated_feeds_raw_output (d : Decoder) (c : Caps) (inputs : T3)
    (Hstop : ∀ x, truthGT (sigmoidT c (c.stopnetF x)) (7/10) = some false)
    (Hproj : ∀ x, ∀ row ∈ c.linear_projectionF x,
      row.length = d.frame_dim * d.r_init)
    (hr : 1 ≤ d.r) (hrr : d.r ≤ d.r_init)
    (hmax : 2 ≤ d.max_decoder_steps) :
    (∃ res p out0 tl tl2, d.inference c inputs none = some (res, p) ∧
      res.outputs = out0 :: tl ∧
      res.mems = (unt2 (d.update_memory (.t2 (d.get_go_frame inputs)))) ::
        out0.map (List.drop (d.frame_dim * (d.r - 1))) :: tl2 ∧
      (∀ row ∈ out0, row.length = d.frame_dim * d.r) ∧
      (∀ row ∈ out0.map (List.drop (d.frame_dim * (d.r - 1))),
        row.length = d.frame_dim)) ∧
    (∃ res p out0 tl tl2, d.inference_truncated c inputs = some (res, p) ∧
      res.outputs = out0 :: tl ∧
      res.mems = ((d.truncated_entry c inputs).memory_truncated.getD []) ::
        out0 :: tl2 ∧
      (∀ row ∈ out0, row.length = d.frame_dim * d.r)) := by
  obtain ⟨k, hk⟩ := Nat.exists_eq_add_of_le hmax
  constructor
  · set d1 := d.init_states c inputs none false with hd1
    set mem0 := unt2 (d.update_memory (.t2 (d.get_go_frame inputs))) with hmem0
    have hfuel : d1.max_decoder_steps = (k + 1) + 1 := by
      rw [hd1, init_states_max]; omega
    obtain ⟨res, hres, hlen, hreas⟩ :=
      inferLoop_never_gate c inputs.length none Hstop
        d1.max_decoder_steps d1 mem0 [] [] [] [] 0 d.max_decoder_steps
        (by rw [hd1, init_states_max]) (by simp [hd1, init_states_max])
        (by simp only [List.length_nil]; omega)
    have hres2 := hres
    rw [hfuel] at hres2
    obtain ⟨tlo, hout⟩ := inferLoop_outputs_cons c inputs.length (k + 1)
      d1 mem0 [] [] [] [] 0 res hres2
    obtain ⟨tlm, hm⟩ := inferLoop_mems_second c inputs.length Hstop (k + 1)
      d1 mem0 [] [] [] [] 0 res
      (by simp only [List.length_nil]; rw [hd1, init_states_max]; omega) hres2
    have hWout : ∀ row ∈ (d1.decode c (prenetM c mem0)).2.1,
        row.length = d.frame_dim * d.r := by
      have := decode_output_rows d1 c (prenetM c mem0)
        (fun x row hrow => by
          rw [hd1, init_states_frame_dim, init_states_r_init]
          exact Hproj x row hrow)
        (by rw [hd1, init_states_r, init_states_r_init]; exact hrr)
      intro row hrow
      rw [hd1, init_states_frame_dim, init_states_r] at this
      exact this row hrow
    have hslice : unt2 ((d1.decode c (prenetM c mem0)).1.update_memory
        (.t2 (d1.decode c (prenetM c mem0)).2.1)) =
        ((d1.decode c (prenetM c mem0)).2.1).map
          (List.drop (d.frame_dim * (d.r - 1))) := by
      simp [Decoder.update_memory, unt2, hd1]
    refine ⟨res, res.dec.parse_outputs res.outputs res.stop_tokens
      res.alignments, (d1.decode c (prenetM c mem0)).2.1, tlo, tlm, ?_, ?_,
      ?_, hWout, ?_⟩
    · simp only [Decoder.inference]
      rw [hres]
    · simpa using hout
    · rw [hm, hslice]
      simp
    · intro row hrow
      obtain ⟨o, ho, rfl⟩ := List.mem_map.1 hrow
      rw [List.length_drop, hWout o ho, Nat.mul_sub_one,
        Nat.sub_sub_self (Nat.le_mul_of_pos_right _ (by omega))]
  · set d2 := d.truncated_entry c inputs with hd2
    have hfuel : d2.max_decoder_steps = (k + 1) + 1 := by
      rw [hd2, truncated_entry_max]; omega
    obtain ⟨res, hres, hlen, hreas⟩ :=
      truncLoop_never_gate c Hstop
        d2.max_decoder_steps d2 [] [] [] [] 0 d.max_decoder_steps
        (by rw [hd2, truncated_entry_max]) (by simp [hd2, truncated_entry_max])
        (by simp only [List.length_nil]; omega)
    have hres2 := hres
    rw [hfuel] at hres2
    obtain ⟨_, ⟨tlo, hout⟩⟩ := truncLoop_cons c (k + 1) d2 [] [] [] [] 0
      res hres2
    obtain ⟨tlm, hm⟩ := truncLoop_mems_second c Hstop (k + 1) d2 [] [] [] [] 0
      res (by simp only [List.length_nil]; rw [hd2, truncated_entry_max]; omega)
      hres2
    have hWout : ∀ row ∈ (d2.decode c
        (prenetM c (d2.memory_truncated.getD []))).2.1,
        row.length = d.frame_dim * d.r := by
      have := decode_output_rows d2 c (prenetM c (d2.memory_truncated.getD []))
        (fun x row hrow => by
          rw [hd2, truncated_entry_frame_dim, truncated_entry_r_init]
          exact Hproj x row hrow)
        (by rw [hd2, truncated_entry_r, truncated_entry_r_init]; exact hrr)
      intro row hrow
      rw [hd2, truncated_entry_frame_dim, truncated_entry_r] at this
      exact this row hrow
    refine ⟨res, res.dec.parse_outputs res.outputs res.stop_tokens
      res.alignments, (d2.decode c
        (prenetM c (d2.memory_truncated.getD []))).2.1, tlo, tlm, ?_, ?_, ?_,
      hWout⟩
    · simp only [Decoder.inference_truncated]
      rw [hres]
    · simpa using hout
    · simpa using hm

/-- Witness for C9 with `dW7` (`frame_dim = 1`, `r = r_init = 2`) and the
cold-gate, width-2-projection capabilities `capsD`. -/
theorem C9_truncated_feeds_raw_output_witness :
    (∃ res p out0 tl tl2, dW7.inference capsD inputsB1T1 none = some (res, p) ∧
      res.outputs = out0 :: tl ∧
      res.mems =
        (unt2 (dW7.update_memory (.t2 (dW7.get_go_frame inputsB1T1)))) ::
        out0.map (List.drop (dW7.frame_dim * (dW7.r - 1))) :: tl2 ∧
      (∀ row ∈ out0, row.length = dW7.frame_dim * dW7.r) ∧
      (∀ row ∈ out0.map (List.drop (dW7.frame_dim * (dW7.r - 1))),
        row.length = dW7.frame_dim)) ∧
    (∃ res p out0 tl tl2, dW7.inference_truncated capsD inputsB1T1 =
        some (res, p) ∧
      res.outputs = out0 :: tl ∧
      res.mems =
        ((dW7.truncated_entry capsD inputsB1T1).memory_truncated.getD []) ::
        out0 :: tl2 ∧
      (∀ row ∈ out0, row.length = dW7.frame_dim * dW7.r)) :=
  C9_truncated_feeds_raw_output dW7 capsD inputsB1T1
    (fun x => by with_unfolding_all rfl)
    (fun x row hrow => by
      rw [show capsD.linear_projectionF x = [[4, 6]] from rfl] at hrow
      rw [List.mem_singleton.1 hrow]
      rfl)
    (by decide) (by decide) (by decide)

theorem decode_gt (c : Caps) (d : Decoder) (g : ℚ) (m : Mat) :
    Decoder.decode { d with gate_threshold := g } c m =
      ({ (Decoder.decode d c m).1 with gate_threshold := g },
        (Decoder.decode d c m).2) := rfl

@[simp] theorem gt_max (d : Decoder) (g : ℚ) :
    ({ d with gate_threshold := g } : Decoder).max_decoder_steps =
      d.max_decoder_steps := rfl

@[simp] theorem gt_memory_truncated (d : Decoder) (g : ℚ) :
    ({ d with gate_threshold := g } : Decoder).memory_truncated =
      d.memory_truncated := rfl

theorem update_memory_gt (d : Decoder) (g : ℚ) (m : Tensor) :
    ({ d with gate_threshold := g } : Decoder).update_memory m =
      d.update_memory m := rfl

theorem get_go_frame_gt (d : Decoder) (g : ℚ) (i : T3) :
    ({ d with gate_threshold := g } : Decoder).get_go_frame i =
      d.get_go_frame i := rfl

theorem parse_outputs_gt {σ : Type} [Inhabited σ] (d : Decoder) (g : ℚ)
    (o : T3) (st : List (List σ)) (al : T3) :
    ({ d with gate_threshold := g } : Decoder).parse_outputs o st al =
      d.parse_outputs o st al := rfl

theorem init_states_gt (d : Decoder) (g : ℚ) (c : Caps) (i : T3)
    (mk : Option Mat) (ks : Bool) :
    ({ d with gate_threshold := g } : Decoder).init_states c i mk ks =
      { d.init_states c i mk ks with gate_threshold := g } := by
  unfold Decoder.init_states
  cases ks <;> rfl

theorem gt_mt_comm (d : Decoder) (g : ℚ) (x : Option Mat) :
    ({ { d with gate_threshold := g } with memory_truncated := x } : Decoder) =
      { { d with memory_truncated := x } with gate_threshold := g } := rfl

/-- The free-running loop never reads `gate_threshold`: starting it on a
decoder with that field overwritten only overwrites the same field of the
returned decoder. -/
theorem inferLoop_gt (c : Caps) (B : ℕ) (sp : Option Mat) :
    ∀ (fuel : ℕ) (d : Decoder) (g : ℚ) (mem : Mat) (os st al ms : T3) (t : ℕ),
      inferLoop c B sp fuel { d with gate_threshold := g } mem os st al ms t =
        (inferLoop c B sp fuel d mem os st al ms t).map
          (fun r => { r with dec := { r.dec with gate_threshold := g } }) := by
  intro fuel
  induction fuel with
  | zero => intro d g mem os st al ms t; rfl
  | succ fuel ih =>
    intro d g mem os st al ms t
    simp only [inferLoop, decode_gt, gt_max, update_memory_gt]
    cases htg : truthGT (sigmoidT c
        (Decoder.decode d c (addSpeaker sp (prenetM c mem))).2.2.2) (7/10) with
    | none => simp
    | some gate =>
      by_cases hc : gate = true ∧ ((B : ℚ) / 2 < (t : ℚ))
      · simp [hc]
      · by_cases hc2 : (os ++ [(Decoder.decode d c
            (addSpeaker sp (prenetM c mem))).2.1]).length =
              (Decoder.decode d c (addSpeaker sp (prenetM c mem))).1.max_decoder_steps
        · simp [hc, hc2]
        · simp only [hc, hc2, if_false, if_neg]
          exact ih _ _ _ _ _ _ _ _

/-- The truncated loop never reads `gate_threshold` either. -/
theorem truncLoop_gt (c : Caps) :
    ∀ (fuel : ℕ) (d : Decoder) (g : ℚ) (os st al ms : T3) (t : ℕ),
      truncLoop c fuel { d with gate_threshold := g } os st al ms t =
        (truncLoop c fuel d os st al ms t).map
          (fun r => { r with dec := { r.dec with gate_threshold := g } }) := by
  intro fuel
  induction fuel with
  | zero => intro d g os st al ms t; rfl
  | succ fuel ih =>
    intro d g os st al ms t
    simp only [truncLoop, decode_gt, gt_max, gt_memory_truncated]
    cases htg : truthGT (sigmoidT c (Decoder.decode d c
        (prenetM c (d.memory_truncated.getD []))).2.2.2) (7/10) with
    | none => simp
    | some gate =>
      cases gate with
      | true => simp
      | false =>
        simp only [Bool.false_eq_true, if_false]
        by_cases h2 : (os ++ [(Decoder.decode d c
            (prenetM c (d.memory_truncated.getD []))).2.1]).length =
              (Decoder.decode d c
                (prenetM c (d.memory_truncated.getD []))).1.max_decoder_steps
        · simp [h2]
        · rw [if_neg h2, if_neg h2]
          exact ih { (Decoder.decode d c
              (prenetM c (d.memory_truncated.getD []))).1 with
            memory_truncated := some (Decoder.decode d c
              (prenetM c (d.memory_truncated.getD []))).2.1 } g _ _ _ _ _

theorem truncated_entry_gt (d : Decoder) (g : ℚ) (c : Caps) (i : T3) :
    ({ d with gate_threshold := g } : Decoder).truncated_entry c i =
      { d.truncated_entry c i with gate_threshold := g } := by
  by_cases h : d.memory_truncated = none
  · have lhs : ({ d with gate_threshold := g } : Decoder).truncated_entry c i =
        ({ { d with memory_truncated := some (d.get_go_frame i) } with
          gate_threshold := g } : Decoder).init_states c i none false := by
      unfold Decoder.truncated_entry
      rw [if_pos (by simpa using h)]
      rfl
    have rhs : d.truncated_entry c i =
        ({ d with memory_truncated := some (d.get_go_frame i) } :
          Decoder).init_states c i none false := by
      unfold Decoder.truncated_entry
      rw [if_pos h]
    rw [lhs, rhs, init_states_gt]
  · have lhs : ({ d with gate_threshold := g } : Decoder).truncated_entry c i =
        ({ d with gate_threshold := g } : Decoder).init_states c i none true := by
      unfold Decoder.truncated_entry
      rw [if_neg (by simpa using h)]
    have rhs : d.truncated_entry c i = d.init_states c i none true := by
      unfold Decoder.truncated_entry
      rw [if_neg h]
    rw [lhs, rhs, init_states_gt]

/-- C10: the `gate_threshold` field (initialized to 0.5) is never consulted:
free-running and truncated runs that differ only in that field produce
identical per-step outputs, stop tokens, alignments, memory traces, final
step counters, stop reasons, and parsed outputs — the stop decision
compares the stop sigmoid against the literal 0.7. -/
theorem C10_gate_threshold_never_consulted (d : Decoder) (c : Caps)
    (inputs : T3) (sp : Option Mat) (g1 g2 : ℚ) :
    ((({ d with gate_threshold := g1 } : Decoder).inference c inputs sp).map
        (fun p => (p.1.outputs, p.1.stop_tokens, p.1.alignments, p.1.mems,
          p.1.t, p.1.reason, p.2)) =
      (({ d with gate_threshold := g2 } : Decoder).inference c inputs sp).map
        (fun p => (p.1.outputs, p.1.stop_tokens, p.1.alignments, p.1.mems,
          p.1.t, p.1.reason, p.2))) ∧
    ((({ d with gate_threshold := g1 } : Decoder).inference_truncated c
        inputs).map
        (fun p => (p.1.outputs, p.1.stop_tokens, p.1.alignments, p.1.mems,
          p.1.t, p.1.reason, p.2)) =
      (({ d with gate_threshold := g2 } : Decoder).inference_truncated c
        inputs).map
        (fun p => (p.1.outputs, p.1.stop_tokens, p.1.alignments, p.1.mems,
          p.1.t, p.1.reason, p.2))) := by
  have key : ∀ g : ℚ,
      (({ d with gate_threshold := g } : Decoder).inference c inputs sp).map
        (fun p => (p.1.outputs, p.1.stop_tokens, p.1.alignments, p.1.mems,
          p.1.t, p.1.reason, p.2)) =
      (d.inference c inputs sp).map
        (fun p => (p.1.outputs, p.1.stop_tokens, p.1.alignments, p.1.mems,
          p.1.t, p.1.reason, p.2)) := by
    intro g
    simp only [Decoder.inference, get_go_frame_gt, update_memory_gt,
      init_states_gt, gt_max, inferLoop_gt]
    cases h : inferLoop c inputs.length sp
        ((d.init_states c inputs none false).max_decoder_steps)
        (d.init_states c inputs none false)
        (unt2 (d.update_memory (.t2 (d.get_go_frame inputs)))) [] [] [] [] 0 with
    | none => simp
    | some res => simp [parse_outputs_gt]
  have key2 : ∀ g : ℚ,
      ((({ d with gate_threshold := g } : Decoder).inference_truncated c
        inputs).map
        (fun p => (p.1.outputs, p.1.stop_tokens, p.1.alignments, p.1.mems,
          p.1.t, p.1.reason, p.2))) =
      ((d.inference_truncated c inputs).map
        (fun p => (p.1.outputs, p.1.stop_tokens, p.1.alignments, p.1.mems,
          p.1.t, p.1.reason, p.2))) := by
    intro g
    simp only [Decoder.inference_truncated, truncated_entry_gt, gt_max,
      truncLoop_gt]
    cases h : truncLoop c ((d.truncated_entry c inputs).max_decoder_steps)
        (d.truncated_entry c inputs) [] [] [] [] 0 with
    | none => simp
    | some res => simp [parse_outputs_gt]
  exact ⟨(key g1).trans (key g2).symm, (key2 g1).trans (key2 g2).symm⟩

theorem headD_mem {α : Type} {x : List (List α)} (h : x ≠ []) :
    x.headD [] ∈ x := by
  cases x with
  | nil => exact absurd rfl h
  | cons a t => simp

/-- C6: `_parse_outputs`, fed `T ≥ 1` per-step frame-groups of width
`frame_dim * r` over batch `B`, `T` per-step stop-logit vectors and `T`
per-step alignment matrices of width `L`, returns outputs of shape
`(B, frame_dim, T * r)`, stop-logits of shape `(B, T)` and alignments of
shape `(B, T, L)`. -/
theorem C6_parse_outputs_shapes (d : Decoder) (T B L : ℕ)
    (outputs : T3) (stop_tokens : Mat) (alignments : T3)
    (hT : 1 ≤ T) (hB : 1 ≤ B) (hfd : 1 ≤ d.frame_dim) (hr : 1 ≤ d.r)
    (ho : outputs.length = T)
    (hob : ∀ u ∈ outputs, u.length = B)
    (how : ∀ u ∈ outputs, ∀ v ∈ u, v.length = d.frame_dim * d.r)
    (hs : stop_tokens.length = T) (hsb : ∀ u ∈ stop_tokens, u.length = B)
    (ha : alignments.length = T) (hab : ∀ u ∈ alignments, u.length = B)
    (hal : ∀ u ∈ alignments, ∀ v ∈ u, v.length = L) :
    ∃ os sts als, d.parse_outputs outputs stop_tokens alignments =
        some (os, sts, als) ∧
      os.length = B ∧
      (∀ m ∈ os, m.length = d.frame_dim ∧ ∀ row ∈ m, row.length = T * d.r) ∧
      sts.length = B ∧ (∀ row ∈ sts, row.length = T) ∧
      als.length = B ∧ (∀ m ∈ als, m.length = T ∧ ∀ v ∈ m, v.length = L) := by
  have hfd0 : d.frame_dim ≠ 0 := by omega
  have hone : outputs ≠ [] := by
    intro hnil; rw [hnil] at ho; simp at ho; omega
  have hhead : (outputs.headD []).length = B := hob _ (headD_mem hone)
  have hrows : ∀ row ∈ ttranspose outputs, row.length = T ∧
      ∀ v ∈ row, v.length = d.frame_dim * d.r := by
    intro row hrow
    obtain ⟨j, hj, rfl⟩ := mem_ttranspose_iff.1 hrow
    refine ⟨by rw [List.length_map, ho], ?_⟩
    intro v hv
    obtain ⟨u, hu, rfl⟩ := List.mem_map.1 hv
    rw [hhead] at hj
    exact how u hu _ (getD_mem [] (by rw [hob u hu]; exact hj))
  have hjoin : ∀ row ∈ ttranspose outputs,
      row.flatten.length = d.frame_dim * (T * d.r) := by
    intro row hrow
    rw [length_join_const (hrows row hrow).2, (hrows row hrow).1]
    ring
  have hdvd : ∀ row ∈ ttranspose outputs,
      d.frame_dim ∣ row.flatten.length := by
    intro row hrow
    rw [hjoin row hrow]
    exact ⟨T * d.r, rfl⟩
  simp only [Decoder.parse_outputs]
  rw [if_neg hfd0, if_pos hdvd]
  refine ⟨_, _, _, rfl, ?_, ?_, ?_, ?_, ?_, ?_⟩
  · rw [List.length_map, ttranspose_length, hhead]
  · intro m hm
    obtain ⟨row, hrow, rfl⟩ := List.mem_map.1 hm
    have hclen : (chunkList d.frame_dim row.flatten).length = T * d.r := by
      rw [chunkList_length hfd0 (hdvd row hrow), hjoin row hrow,
        Nat.mul_div_cancel_left _ (by omega)]
    have hcne : chunkList d.frame_dim row.flatten ≠ [] := by
      intro hnil
      rw [hnil] at hclen
      simp at hclen
      rcases hclen with h1 | h1 <;> omega
    refine ⟨?_, ?_⟩
    · rw [ttranspose_length]
      exact chunkList_mem_length hfd0 (hdvd row hrow) _ (headD_mem hcne)
    · intro row2 hrow2
      rw [length_of_mem_ttranspose hrow2, hclen]
  · rw [ttranspose_length]
    have : stop_tokens ≠ [] := by
      intro hnil; rw [hnil] at hs; simp at hs; omega
    exact hsb _ (headD_mem this)
  · intro row hrow
    rw [length_of_mem_ttranspose hrow, hs]
  · rw [ttranspose_length]
    have : alignments ≠ [] := by
      intro hnil; rw [hnil] at ha; simp at ha; omega
    exact hab _ (headD_mem this)
  · intro m hm
    obtain ⟨j, hj, rfl⟩ := mem_ttranspose_iff.1 hm
    refine ⟨by rw [List.length_map, ha], ?_⟩
    intro v hv
    obtain ⟨u, hu, rfl⟩ := List.mem_map.1 hv
    have hane : alignments ≠ [] := by
      intro hnil; rw [hnil] at ha; simp at ha; omega
    rw [hab _ (headD_mem hane)] at hj
    exact hal u hu _ (getD_mem [] (by rw [hab u hu]; exact hj))

/-- Witness for C6 at `T = B = L = 1`, `frame_dim = 1`, `r = 1`. -/
theorem C6_parse_outputs_shapes_witness :
    ∃ os sts als,
      (Decoder.init 1 1 1 false).parse_outputs [[[5]]] ([[3]] : Mat) [[[7]]] =
        some (os, sts, als) ∧
      os.length = 1 ∧
      (∀ m ∈ os, m.length = (Decoder.init 1 1 1 false).frame_dim ∧
        ∀ row ∈ m, row.length = 1 * (Decoder.init 1 1 1 false).r) ∧
      sts.length = 1 ∧ (∀ row ∈ sts, row.length = 1) ∧
      als.length = 1 ∧ (∀ m ∈ als, m.length = 1 ∧ ∀ v ∈ m, v.length = 1) :=
  C6_parse_outputs_shapes (Decoder.init 1 1 1 false) 1 1 1 [[[5]]] [[3]] [[[7]]]
    (by decide) (by decide) (by decide) (by decide) (by decide) (by decide)
    (by decide) (by decide) (by decide) (by decide) (by decide) (by decide)

/-- Exact ceiling division for an exact multiple. -/
theorem ceil_div_exact {r G : ℕ} (hr : 1 ≤ r) : (r * G + r - 1) / r = G := by
  obtain ⟨rr, rfl⟩ : ∃ rr, r = rr + 1 := ⟨r - 1, by omega⟩
  rw [Nat.add_sub_assoc (by omega), Nat.add_sub_cancel,
    Nat.mul_add_div (by omega), Nat.div_eq_of_lt (by omega), Nat.add_zero]

/-- C5 fails as stated: with `frame_dim = 2`, `r = 2` and 5 ground-truth
frames, `ceil(5 / 2) = 3`, but the teacher-forced run never reaches its
loop: `view(B, 5 // 2, -1)` regroups the truth into groups of width 5, and
the `torch.cat` with the `(B, frame_dim * r) = (B, 4)` go frame raises a
size-mismatch error, so no decode step executes. -/
theorem C5_counterexample_non_multiple :
    ¬ (∃ res p, (Decoder.init 1 2 2 false).forward capsB inputsB1T1 truthT5
        none none = .ok (res, p) ∧ res.steps = (5 + 2 - 1) / 2) := by
  have heval : (Decoder.init 1 2 2 false).forward capsB inputsB1T1 truthT5
      none none = .error "cat: size mismatch" := by with_unfolding_all rfl
  rintro ⟨res, p, hok, _⟩
  rw [heval] at hok
  cases hok

/-- C5, amended: when the reduction factor divides the number of
ground-truth frames (`T = r * G`, the only case in which the go-frame
concatenation is shape-consistent), a teacher-forced run executes exactly
`T / r = ceil(T / r)` decode steps. -/
theorem C5_forward_steps_exact_multiple (d : Decoder) (c : Caps) (inputs : T3)
    (memories : T3) (mask : Option Mat) (T B : ℕ)
    (hT : 1 ≤ T) (hB : 1 ≤ B) (hr : 1 ≤ d.r) (hfd : 1 ≤ d.frame_dim)
    (hdvd : d.r ∣ T)
    (hmB : memories.length = B) (hinB : inputs.length = B)
    (hml : ∀ m ∈ memories, m.length = T)
    (hmw : ∀ m ∈ memories, ∀ row ∈ m, row.length = d.frame_dim) :
    ∃ res p, d.forward c inputs memories mask none = .ok (res, p) ∧
      res.steps = (T + d.r - 1) / d.r := by
  obtain ⟨G, hG⟩ := hdvd
  have hG1 : 1 ≤ G := by
    rcases Nat.eq_zero_or_pos G with h0 | h
    · rw [h0, Nat.mul_zero] at hG; omega
    · exact h
  have hmne : memories ≠ [] := by
    intro hnil; rw [hnil] at hmB; simp at hmB; omega
  have hTlen : (memories.headD []).length = T := hml _ (headD_mem hmne)
  have hhne : memories.headD [] ≠ [] := by
    intro hnil; rw [hnil] at hTlen; simp at hTlen; omega
  have hhrow : ((memories.headD []).headD []).length = d.frame_dim :=
    hmw _ (headD_mem hmne) _ (headD_mem hhne)
  have hgdiv : T / d.r = G := by
    rw [hG, Nat.mul_div_cancel_left _ (by omega)]
  have hflat : ∀ row ∈ memories,
      row.flatten.length = G * (d.r * d.frame_dim) := by
    intro row hrow
    rw [length_join_const (hmw row hrow), hml row hrow, hG]
    ring
  have hw : T * d.frame_dim / G = d.r * d.frame_dim := by
    rw [hG, show d.r * G * d.frame_dim = G * (d.r * d.frame_dim) from by ring,
      Nat.mul_div_cancel_left _ (by omega)]
  have hcheck : T * d.frame_dim = G * (d.r * d.frame_dim) := by
    rw [hG]; ring
  have hreshape : d.reshape_memory memories = some (ttranspose (memories.map
      (fun row => chunkList (d.r * d.frame_dim) row.flatten))) := by
    simp only [Decoder.reshape_memory, hTlen, hhrow, hgdiv, hw]
    rw [if_pos trivial, if_neg (by omega), if_pos hcheck]
  have hchunk_len : ∀ row ∈ memories,
      (chunkList (d.r * d.frame_dim) row.flatten).length = G := by
    intro row hrow
    rw [chunkList_length (by intro h0; rw [Nat.mul_eq_zero] at h0; omega)
        ⟨G, by rw [hflat row hrow]; ring⟩,
      hflat row hrow, Nat.mul_comm G, Nat.mul_div_cancel_left _ (by
        have : 1 ≤ d.r * d.frame_dim := Nat.one_le_iff_ne_zero.2
          (by intro h0; rw [Nat.mul_eq_zero] at h0; omega)
        omega)]
  have hXlen : (memories.map
      (fun row => chunkList (d.r * d.frame_dim) row.flatten)).length = B := by
    rw [List.length_map, hmB]
  have hXne : memories.map
      (fun row => chunkList (d.r * d.frame_dim) row.flatten) ≠ [] := by
    intro hnil; rw [hnil] at hXlen; simp at hXlen; omega
  have hhd : ((memories.map (fun row => chunkList (d.r * d.frame_dim)
      row.flatten)).headD []).length = G := by
    obtain ⟨row, hrow, heq⟩ := List.mem_map.1 (headD_mem hXne)
    rw [← heq]
    exact hchunk_len row hrow
  have hMS_len : (ttranspose (memories.map (fun row =>
      chunkList (d.r * d.frame_dim) row.flatten))).length = G := by
    rw [ttranspose_length, hhd]
  have hMS_rows : ∀ m ∈ ttranspose (memories.map (fun row =>
      chunkList (d.r * d.frame_dim) row.flatten)),
      m.length = B ∧ ∀ row2 ∈ m, row2.length = d.frame_dim * d.r := by
    intro m hm
    obtain ⟨j, hj, rfl⟩ := mem_ttranspose_iff.1 hm
    refine ⟨by rw [List.length_map, List.length_map, hmB], ?_⟩
    intro v hv
    obtain ⟨u, hu, rfl⟩ := List.mem_map.1 hv
    obtain ⟨row, hrow, rfl⟩ := List.mem_map.1 hu
    rw [hhd] at hj
    have hjG : j < (chunkList (d.r * d.frame_dim) row.flatten).length := by
      rw [hchunk_len row hrow]; exact hj
    exact (chunkList_mem_length
        (by intro h0; rw [Nat.mul_eq_zero] at h0; omega)
        ⟨G, by rw [hflat row hrow]; ring⟩ _
        (getD_mem (default : Vec) hjG)).trans (Nat.mul_comm _ _)
  have hgo : (d.get_go_frame inputs).length = B := by
    rw [Decoder.get_go_frame, zerosM, List.length_replicate, hinB]
  have hcat : ∀ m ∈ ttranspose (memories.map (fun row =>
      chunkList (d.r * d.frame_dim) row.flatten)),
      m.length = (d.get_go_frame inputs).length ∧
        ∀ row ∈ m, row.length = d.frame_dim * d.r := by
    intro m hm
    exact ⟨by rw [hgo, (hMS_rows m hm).1], (hMS_rows m hm).2⟩
  simp only [Decoder.forward, hreshape]
  rw [if_pos hcat]
  refine ⟨_, _, rfl, ?_⟩
  have hlen2 : (prenet3 c (unt3 (d.update_memory (.t3 ((d.get_go_frame
      inputs) :: ttranspose (memories.map (fun row =>
        chunkList (d.r * d.frame_dim) row.flatten))))))).length = G + 1 := by
    simp [prenet3, Decoder.update_memory, unt3, hMS_len]
  show (fwdLoop c _ _ _ [] [] []).2.1.length = (T + d.r - 1) / d.r
  rw [fwdLoop_length c _ _ _ _ _ _
    (by simp only [List.length_nil, Nat.zero_add]; omega), hlen2]
  rw [hG, ceil_div_exact hr]
  simp only [List.length_nil]
  omega

/-- Witness for the amended C5 with 4 ground-truth frames and `r = 2`:
exactly `4 / 2 = ceil(4 / 2) = 2` decode steps. -/
theorem C5_forward_steps_exact_multiple_witness :
    ∃ res p, (Decoder.init 1 2 2 false).forward capsB inputsB1T1 truthT4
        none none = .ok (res, p) ∧
      res.steps = (4 + (Decoder.init 1 2 2 false).r - 1) /
        (Decoder.init 1 2 2 false).r :=
  C5_forward_steps_exact_multiple (Decoder.init 1 2 2 false) capsB inputsB1T1
    truthT4 none 4 1 (by decide) (by decide) (by decide) (by decide)
    (by decide) (by decide) (by decide) (by decide) (by decide)
